import Mathlib

/-!
Verification of the certgraph certificate-graph crawler (`main.go`).

The program discovers related hosts by following the hostnames embedded in TLS
certificates, breadth first, with a bounded worker pool.  This file gives a
shallow embedding of the program:

* pure helpers (`directDomain`, the neighbor derivation of `BFSPeers`,
  `checkNetErr`, `getPeerCerts`) are translated directly as Lean functions;
* the network is an oracle `String → NetResult` (the result of
  `tls.DialWithDialer` for a host: either the peer certificate chain or a
  transport error);
* the concurrent `BFS` function (one dispatcher goroutine, one aggregator
  goroutine, worker goroutines gated by the `threadPass` channel used as a
  counting semaphore, and a `sync.WaitGroup` completion counter) is embedded
  as a small-step transition system `Step` over explicit states `St`.
  Channels are modelled as queues; the buffered `domainGraphChan` hop to the
  aggregator is collapsed into the worker's commit step (the aggregator is
  the unique consumer and stores nodes unchanged, so this only removes a
  delay, not any behaviour the claims are about).

Theorems then settle the specification claims: semaphore bound, termination
of the WaitGroup counter, depth limiting, dedup / single node per canonical
domain, neighbor derivation, canonicalization, failure isolation, the
startup parallelism check, and non-nil `Neighbors` pointers.
-/

namespace Certgraph

/-- A peer certificate, as far as the program reads it: the leaf subject
CommonName and the SAN DNS names (`x509.Certificate.Subject.CommonName` and
`x509.Certificate.DNSNames`). -/
structure Certificate where
  commonName : String
  dnsNames : List String
deriving DecidableEq

/-- Classified transport failures, the cases `checkNetErr` distinguishes:
a `net.Error` timeout, a dial `net.OpError` (unknown host), a read
`net.OpError` or `syscall.ECONNREFUSED` (connection refused), plus any other
handshake / transport error (the code's default: no log line, same result). -/
inductive NetErr where
  | timeout
  | unknownHost
  | connRefused
  | handshake
  | other
deriving DecidableEq

/-- Result of one `tls.DialWithDialer` attempt for a host: the peer
certificate chain, or a transport error. -/
inductive NetResult where
  | ok (certs : List Certificate)
  | err (e : NetErr)
deriving DecidableEq

/-- Embedding of `checkNetErr`: `err == nil` returns `false`; every non-nil
error returns `true` (the classification in the function body only selects a
verbose log message and never changes the return value). -/
def checkNetErr (err : Option NetErr) : Bool :=
  match err with
  | none => false
  | some _ => true

/-- The verbose log message `checkNetErr` would emit for each error class
(`none` where the code logs nothing: handshake and other transport errors
fall through both the timeout test and the type switch). -/
def netErrMessage (e : NetErr) : Option String :=
  match e with
  | NetErr.timeout => some "Timeout"
  | NetErr.unknownHost => some "Unknown host"
  | NetErr.connRefused => some "Connection refused"
  | NetErr.handshake => none
  | NetErr.other => none

/-- Embedding of `directDomain`: strings shorter than 3 are returned as is;
otherwise a leading wildcard label `"*."` is stripped.  Go slices bytes and
Lean `String.take` takes characters, but the two agree on this function's
output: the prefix test against the ASCII string `"*."` succeeds for exactly
the same inputs, and on those inputs byte length ≥ 3 iff character
length ≥ 3. -/
def directDomain (domain : String) : String :=
  if domain.length < 3 then domain
  else if domain.take 2 = "*." then domain.drop 2
  else domain

/-- Embedding of the dial in `getPeerCerts`: the error handed to
`checkNetErr` and the certificate chain of the connection (empty when the
dial failed and no connection exists). -/
def dialResult (oracle : String → NetResult) (host : String) :
    Option NetErr × List Certificate :=
  match oracle host with
  | NetResult.ok certs => (none, certs)
  | NetResult.err e => (some e, [])

/-- Embedding of `getPeerCerts`: dial, and return the empty chain whenever
`checkNetErr` reports an error, otherwise the peer certificates. -/
def getPeerCerts (oracle : String → NetResult) (host : String) :
    List Certificate :=
  let r := dialResult oracle host
  if checkNetErr r.1 then [] else r.2

/-- Embedding of `strings.ToLower` as the program applies it to hostnames:
character-wise lowering (DNS hostnames are ASCII, where Go's Unicode case
folding and `Char.toLower` agree). -/
def strToLower (s : String) : String :=
  ⟨s.data.map Char.toLower⟩

/-- Lexicographic strict comparison of character lists, the order
underlying Go's `string` comparison (Go compares UTF-8 bytes and this
compares code points; on UTF-8 the two orders agree). -/
def lexLt : List Char → List Char → Bool
  | [], [] => false
  | [], _ :: _ => true
  | _ :: _, [] => false
  | a :: as, b :: bs =>
    if a < b then true else if b < a then false else lexLt as bs

/-- Strict string comparison used by `sort.Strings`. -/
def strLt (a b : String) : Bool :=
  lexLt a.data b.data

/-- Reflexive string comparison: `a ≤ b` iff `¬ b < a`. -/
def strLe (a b : String) : Bool :=
  ! strLt b a

/-- The CommonName contribution in `BFSPeers`: the lowercased leaf
CommonName of `certs[0]`, if non-empty. -/
def cnCandidate (certs : List Certificate) : List String :=
  match certs with
  | [] => []
  | c :: _ =>
    let cn := strToLower c.commonName
    if 0 < cn.length then [cn] else []

/-- The SAN contribution in `BFSPeers`: every non-empty DNS name of every
certificate in the chain, lowercased, in chain order. -/
def sanCandidates (certs : List Certificate) : List String :=
  (certs.map (fun c => (c.dnsNames.filter (fun d => 0 < d.length)).map
    strToLower)).flatten

/-- All strings `BFSPeers` inserts into its `domainMap` set, in program
order: the CommonName candidate followed by the SAN candidates. -/
def certCandidates (certs : List Certificate) : List String :=
  cnCandidate certs ++ sanCandidates certs

/-- Lexicographic ascending string sort, the denotation of `sort.Strings`. -/
def sortStrings (l : List String) : List String :=
  l.insertionSort (fun a b => strLe a b = true)

/-- The pure body of `BFSPeers` once the chain is fetched: an empty chain
yields no neighbors, otherwise the distinct candidate names sorted
ascending (the Go code collects them in a `map[string]bool` and then sorts,
which denotes exactly the sorted deduplicated list). -/
def peersOfCerts (certs : List Certificate) : List String :=
  if certs.length = 0 then []
  else sortStrings (certCandidates certs).dedup

/-- Embedding of `BFSPeers`: fetch the peer chain for `host` and derive the
neighbor list. -/
def BFSPeers (oracle : String → NetResult) (host : String) : List String :=
  peersOfCerts (getPeerCerts oracle host)

/-- A `DomainNode` as the program builds it: the raw domain, the BFS depth,
and the `Neighbors` pointer, `none` while still the nil pointer and
`some ns` once the worker has assigned it. -/
structure DomainNode where
  dom : String
  depth : Nat
  neighbors : Option (List String)
deriving DecidableEq

/-- A pending frontier item travelling on `domainChan`: raw domain and
depth (its `Neighbors` pointer is still nil, so it is not carried). -/
structure Item where
  dom : String
  depth : Nat
deriving DecidableEq

/-- Configuration fixed at startup: the `-depth` bound (a Go `int`, hence
`Int`), the worker-pool capacity `parallel`, and the network oracle (which
absorbs `-port` and `-timeout`). -/
structure Cfg where
  maxD : Int
  P : Nat
  oracle : String → NetResult

/-- Store into the `domainGraph` map: replace the binding of `key` if
present, else append it. -/
def insertNode (g : List (String × DomainNode)) (key : String)
    (n : DomainNode) : List (String × DomainNode) :=
  match g with
  | [] => [(key, n)]
  | (k, m) :: rest =>
    if k = key then (key, n) :: rest else (k, m) :: insertNode rest key n

/-- Read from the `domainGraph` map. -/
def lookupNode (g : List (String × DomainNode)) (key : String) :
    Option DomainNode :=
  match g with
  | [] => none
  | (k, n) :: rest => if k = key then some n else lookupNode rest key

/-- Global state of a `BFS` run.  `pending` is the content of `domainChan`
(FIFO: the single dispatcher takes the head, senders append).  Worker
goroutines are split by phase: `waiting` have been spawned but not yet
received from `threadPass`; `resolving` hold a permit and are between the
permit receive and the end of their network / commit work; `committing`
have done their work and still have to run their deferred sends
(`threadPass <- true`, then `wg.Done()`); `finished` have returned.
`visited` is `markedDomains`, `graph` is the aggregator's `domainGraph`,
`avail` the number of tokens in `threadPass`, `wg` the WaitGroup counter,
`hwm` the global `depth` high-water mark. -/
structure St where
  pending : List Item
  visited : List String
  waiting : List Item
  resolving : List Item
  committing : List Item
  finished : List Item
  graph : List (String × DomainNode)
  avail : Nat
  wg : Nat
  hwm : Nat
deriving DecidableEq

/-- State right after the prologue of `BFS root`: the `threadPass` channel
holds `parallel` tokens, `wg.Add(1)` has run and the root item sits on
`domainChan` at depth 0. -/
def initSt (cfg : Cfg) (root : String) : St where
  pending := [⟨root, 0⟩]
  visited := []
  waiting := []
  resolving := []
  committing := []
  finished := []
  graph := []
  avail := cfg.P
  wg := 1
  hwm := 0

/-- One atomic step of the system.  Dispatcher steps consume the head of
`domainChan`; worker steps pick any goroutine of the right phase (the list
split `la ++ w :: lb` is the scheduler's choice). -/
inductive Step (cfg : Cfg) : St → St → Prop where
  /-- Dispatcher: `domainNode.Depth > maxDepth`, log and `wg.Done()`. -/
  | skipDepth (s : St) (d : String) (k : Nat) (rest : List Item)
      (hp : s.pending = ⟨d, k⟩ :: rest)
      (hd : cfg.maxD < (k : Int)) :
      Step cfg s { s with pending := rest, wg := s.wg - 1 }
  /-- Dispatcher: depth admissible but `markedDomains[dDomain]` already set:
  update the high-water mark and `wg.Done()`. -/
  | skipVisited (s : St) (d : String) (k : Nat) (rest : List Item)
      (hp : s.pending = ⟨d, k⟩ :: rest)
      (hd : ¬ cfg.maxD < (k : Int))
      (hv : directDomain d ∈ s.visited) :
      Step cfg s { s with pending := rest, wg := s.wg - 1,
                          hwm := max s.hwm k }
  /-- Dispatcher: depth admissible and domain fresh: mark it and spawn a
  worker goroutine (which first blocks on `threadPass`). -/
  | dispatch (s : St) (d : String) (k : Nat) (rest : List Item)
      (hp : s.pending = ⟨d, k⟩ :: rest)
      (hd : ¬ cfg.maxD < (k : Int))
      (hv : directDomain d ∉ s.visited) :
      Step cfg s { s with pending := rest,
                          visited := directDomain d :: s.visited,
                          waiting := ⟨d, k⟩ :: s.waiting,
                          hwm := max s.hwm k }
  /-- A waiting worker receives a token from `threadPass`. -/
  | acquire (s : St) (w : Item) (la lb : List Item) (a : Nat)
      (hw : s.waiting = la ++ w :: lb)
      (ha : s.avail = a + 1) :
      Step cfg s { s with waiting := la ++ lb,
                          resolving := w :: s.resolving,
                          avail := a }
  /-- A permit-holding worker runs its body: resolves the certificates of
  the canonical domain, assigns the `Neighbors` pointer, sends the node to
  the aggregator (which stores it under the canonical key), and for each
  neighbor runs `wg.Add(1)` and enqueues a depth+1 frontier item. -/
  | resolveCommit (s : St) (d : String) (k : Nat) (la lb : List Item)
      (hr : s.resolving = la ++ ⟨d, k⟩ :: lb) :
      Step cfg s { s with
        resolving := la ++ lb,
        committing := ⟨d, k⟩ :: s.committing,
        graph := insertNode s.graph (directDomain d)
          ⟨d, k, some (BFSPeers cfg.oracle (directDomain d))⟩,
        pending := s.pending ++
          (BFSPeers cfg.oracle (directDomain d)).map (fun n => ⟨n, k + 1⟩),
        wg := s.wg + (BFSPeers cfg.oracle (directDomain d)).length }
  /-- A worker returns: the deferred `threadPass <- true` and `wg.Done()`
  run (in that order; both are collapsed into one step). -/
  | release (s : St) (w : Item) (la lb : List Item)
      (hc : s.committing = la ++ w :: lb) :
      Step cfg s { s with committing := la ++ lb,
                          finished := w :: s.finished,
                          avail := s.avail + 1,
                          wg := s.wg - 1 }

/-- Reachability in the transition system. -/
def Reaches (cfg : Cfg) : St → St → Prop :=
  Relation.ReflTransGen (Step cfg)

/-- One deterministic scheduling choice: run a resolving worker if any,
else let a finished worker return, else hand a permit to a waiting worker,
else let the dispatcher consume the next frontier item.  Returns `none`
when no step is possible under this policy. -/
def schedStep (cfg : Cfg) (s : St) : Option St :=
  match s.resolving with
  | ⟨d, k⟩ :: rb =>
    some { s with
      resolving := rb,
      committing := ⟨d, k⟩ :: s.committing,
      graph := insertNode s.graph (directDomain d)
        ⟨d, k, some (BFSPeers cfg.oracle (directDomain d))⟩,
      pending := s.pending ++
        (BFSPeers cfg.oracle (directDomain d)).map (fun n => ⟨n, k + 1⟩),
      wg := s.wg + (BFSPeers cfg.oracle (directDomain d)).length }
  | [] =>
    match s.committing with
    | w :: cb =>
      some { s with committing := cb, finished := w :: s.finished,
                    avail := s.avail + 1, wg := s.wg - 1 }
    | [] =>
      match s.waiting, s.avail with
      | w :: wb, a + 1 =>
        some { s with waiting := wb, resolving := [w], avail := a }
      | _, _ =>
        match s.pending with
        | ⟨d, k⟩ :: rest =>
          if cfg.maxD < (k : Int) then
            some { s with pending := rest, wg := s.wg - 1 }
          else if directDomain d ∈ s.visited then
            some { s with pending := rest, wg := s.wg - 1,
                          hwm := max s.hwm k }
          else
            some { s with pending := rest,
                          visited := directDomain d :: s.visited,
                          waiting := ⟨d, k⟩ :: s.waiting,
                          hwm := max s.hwm k }
        | [] => none

/-- Run the deterministic scheduler for at most `fuel` steps. -/
def runBFS (cfg : Cfg) : Nat → St → St
  | 0, s => s
  | fuel + 1, s =>
    match schedStep cfg s with
    | some t => runBFS cfg fuel t
    | none => s

/-- Embedding of `printGraph`: iterate the graph keys in sorted order and
render `domain, depth, *Neighbors` per node.  Dereferencing a nil
`Neighbors` pointer would fault, which the model expresses by returning
`none`; on success the line contents are returned as data. -/
def renderLines (g : List (String × DomainNode)) :
    List String → Option (List (String × Nat × List String))
  | [] => some []
  | d :: rest =>
    match lookupNode g d with
    | none => none
    | some n =>
      match n.neighbors with
      | none => none
      | some ns =>
        match renderLines g rest with
        | none => none
        | some lines => some ((d, n.depth, ns) :: lines)

/-- Embedding of `printGraph` proper: sort the keys of `domainGraph` and
render every node. -/
def printGraph (g : List (String × DomainNode)) :
    Option (List (String × Nat × List String)) :=
  renderLines g (sortStrings (g.map Prod.fst))

/-- Embedding of `main` after flag parsing: reject a non-positive
`-parallel` value with the fatal message and return before `BFS` runs
(in particular before any network access); otherwise lowercase the host
and run `BFS`.  `fuel` bounds the deterministic scheduler. -/
def mainRun (parallel : Int) (maxD : Int) (host : String)
    (oracle : String → NetResult) (fuel : Nat) :
    Except String (List (String × DomainNode)) :=
  if parallel < 1 then
    Except.error "Must enter a positive number of parallel threads"
  else
    let cfg : Cfg := ⟨maxD, parallel.toNat, oracle⟩
    Except.ok (runBFS cfg fuel (initSt cfg (strToLower host))).graph

/-- Worker goroutines spawned and not yet returned (those the WaitGroup
still counts, together with the pending frontier items). -/
def St.active (s : St) : List Item :=
  s.waiting ++ s.resolving ++ s.committing

/-- Every worker goroutine ever spawned during the run. -/
def St.workers (s : St) : List Item :=
  s.waiting ++ s.resolving ++ s.committing ++ s.finished

/-- Termination measure for a run whose canonical domains all lie in the
finite list `U` with per-host fan-out at most `F`: frontier items count 1,
a waiting worker `F + 3`, a resolving worker `F + 2` (it will add up to `F`
frontier items and move to `committing`, weight 1), and every not yet
visited domain of `U` banks `F + 3` for the worker its admission spawns. -/
def bfsMeasure (U : List String) (F : Nat) (s : St) : Nat :=
  s.pending.length + (F + 3) * s.waiting.length +
    (F + 2) * s.resolving.length + s.committing.length +
    (F + 3) * (U.length - s.visited.length)

/-- Confinement of every domain in flight to the finite universe `U`:
canonical domains of frontier items, of workers, and the visited set. -/
def DomInv (U : List String) (s : St) : Prop :=
  (∀ it ∈ s.pending, directDomain it.dom ∈ U) ∧
  (∀ w ∈ s.workers, directDomain w.dom ∈ U) ∧
  (∀ v ∈ s.visited, v ∈ U)

/-- Deduplication discipline: distinct workers correspond to distinct
canonical domains, every spawned worker's canonical domain was marked in
`markedDomains` first, the graph holds at most one binding per canonical
domain, and graph keys come from workers that have committed. -/
def DedupInv (s : St) : Prop :=
  (s.workers.map (fun w => directDomain w.dom)).Nodup ∧
  (∀ w ∈ s.workers, directDomain w.dom ∈ s.visited) ∧
  (s.graph.map Prod.fst).Nodup ∧
  (∀ p ∈ s.graph, p.1 ∈
    (s.committing ++ s.finished).map (fun w => directDomain w.dom))

/-- Shape of every committed graph binding: keyed by the canonical domain
of its node, `Neighbors` assigned to exactly the derived peer list, and
depth within the configured bound. -/
def GraphInv (cfg : Cfg) (s : St) : Prop :=
  ∀ p ∈ s.graph,
    p.1 = directDomain p.2.dom ∧
    p.2.neighbors = some (BFSPeers cfg.oracle (directDomain p.2.dom)) ∧
    (p.2.depth : Int) ≤ cfg.maxD

/-- Depth bound on every spawned worker. -/
def WorkerDepthInv (cfg : Cfg) (s : St) : Prop :=
  ∀ w ∈ s.workers, (w.depth : Int) ≤ cfg.maxD

/-- Every hostname in flight is already lowercase (the seed is lowercased
in `main`, every derived neighbor in `BFSPeers`). -/
def LoweredInv (s : St) : Prop :=
  (∀ it ∈ s.pending, strToLower it.dom = it.dom) ∧
  (∀ w ∈ s.workers, strToLower w.dom = w.dom) ∧
  (∀ p ∈ s.graph, strToLower p.2.dom = p.2.dom)

/-- Test network: `a.test` presents a certificate naming only itself — the
self-referential cycle of the termination claim; every other host fails. -/
def oracleSelf : String → NetResult := fun h =>
  if h = "a.test" then NetResult.ok [⟨"a.test", ["a.test"]⟩]
  else NetResult.err NetErr.unknownHost

/-- Test network: `a.test` presents a certificate naming `b.test`; every
other host fails with a dial error. -/
def oracleFan : String → NetResult := fun h =>
  if h = "a.test" then NetResult.ok [⟨"a.test", ["b.test"]⟩]
  else NetResult.err NetErr.unknownHost

/-- Test network: `example.com` presents a certificate whose SAN list holds
both the wildcard and the bare form of the same domain. -/
def oracleWild : String → NetResult := fun h =>
  if h = "example.com" then
    NetResult.ok [⟨"", ["*.example.com", "example.com"]⟩]
  else NetResult.err NetErr.unknownHost

/-- Configuration for the depth-bound counterexample: max depth 0, one
worker, the `oracleFan` network. -/
def fanCfg : Cfg := ⟨0, 1, oracleFan⟩

/-- Configuration for the wildcard-collapse run: max depth 20 (the flag
default), ten workers (the flag default), the `oracleWild` network. -/
def wildCfg : Cfg := ⟨20, 10, oracleWild⟩

/-- Configuration for the self-referential termination run. -/
def selfCfg : Cfg := ⟨20, 10, oracleSelf⟩

/-- A mid-run state of a traversal under `oracleFan`: the worker for
`b.test` (whose resolution fails) holds the only permit and is about to run
its body. -/
def failSt : St where
  pending := []
  visited := ["a.test", "b.test"]
  waiting := []
  resolving := [⟨"b.test", 1⟩]
  committing := []
  finished := [⟨"a.test", 0⟩]
  graph := [("a.test", ⟨"a.test", 0, some ["a.test", "b.test"]⟩)]
  avail := 0
  wg := 1
  hwm := 1

/-! Helper lemmas: the executable string order is a total order and agrees
with the standard lexicographic order on `String`. -/

theorem lexLt_asymm (x : List Char) : ∀ y : List Char,
    lexLt x y = true → lexLt y x = false := by
  induction x with
  | nil =>
    intro y h
    cases y with
    | nil => simp [lexLt]
    | cons b bs => simp [lexLt]
  | cons a as ih =>
    intro y h
    cases y with
    | nil => simp [lexLt] at h
    | cons b bs =>
      by_cases hab : a < b
      · have hba : ¬ b < a := lt_asymm hab
        simp [lexLt, hab, hba]
      · by_cases hba : b < a
        · simp [lexLt, hab, hba] at h
        · have h' : lexLt as bs = true := by simpa [lexLt, hab, hba] using h
          simp [lexLt, hab, hba, ih bs h']

theorem lexLt_connex (x : List Char) : ∀ y : List Char,
    lexLt x y = false → lexLt y x = false → x = y := by
  induction x with
  | nil =>
    intro y h1 _
    cases y with
    | nil => rfl
    | cons b bs => simp [lexLt] at h1
  | cons a as ih =>
    intro y h1 h2
    cases y with
    | nil => simp [lexLt] at h2
    | cons b bs =>
      by_cases hab : a < b
      · simp [lexLt, hab] at h1
      · by_cases hba : b < a
        · simp [lexLt, hba] at h2
        · have hab' : a = b :=
            le_antisymm (le_of_not_lt hba) (le_of_not_lt hab)
          have h1' : lexLt as bs = false := by
            simpa [lexLt, hab, hba] using h1
          have h2' : lexLt bs as = false := by
            simpa [lexLt, hab, hba] using h2
          rw [hab', ih bs h1' h2']

theorem lexLt_trans (x : List Char) : ∀ y z : List Char,
    lexLt x y = true → lexLt y z = true → lexLt x z = true := by
  induction x with
  | nil =>
    intro y z h1 h2
    cases z with
    | nil =>
      cases y with
      | nil => simp [lexLt] at h1
      | cons b bs => simp [lexLt] at h2
    | cons c cs => simp [lexLt]
  | cons a as ih =>
    intro y z h1 h2
    cases y with
    | nil => simp [lexLt] at h1
    | cons b bs =>
      cases z with
      | nil => simp [lexLt] at h2
      | cons c cs =>
        by_cases hab : a < b
        · by_cases hbc : b < c
          · simp [lexLt, lt_trans hab hbc]
          · by_cases hcb : c < b
            · simp [lexLt, hbc, hcb] at h2
            · have hbc' : b = c :=
                le_antisymm (le_of_not_lt hcb) (le_of_not_lt hbc)
              simp [lexLt, hbc' ▸ hab]
        · by_cases hba : b < a
          · simp [lexLt, hab, hba] at h1
          · have hab' : a = b :=
              le_antisymm (le_of_not_lt hba) (le_of_not_lt hab)
            subst hab'
            have h1' : lexLt as bs = true := by
              simpa [lexLt, hab, hba] using h1
            by_cases hbc : a < c
            · simp [lexLt, hbc]
            · by_cases hcb : c < a
              · simp [lexLt, hbc, hcb] at h2
              · have h2' : lexLt bs cs = true := by
                  simpa [lexLt, hbc, hcb] using h2
                simp [lexLt, hbc, hcb, ih bs cs h1' h2']

instance : IsTotal String (fun a b => strLe a b = true) := by
  constructor
  intro a b
  by_cases h : strLt b a = true
  · right
    have h' : lexLt a.data b.data = false := lexLt_asymm _ _ h
    simp [strLe, strLt, h']
  · left
    simp [strLe, strLt] at h ⊢
    exact h

instance : IsTrans String (fun a b => strLe a b = true) := by
  constructor
  intro a b c hab hbc
  simp only [strLe, strLt, Bool.not_eq_true', Bool.not_eq_true] at hab hbc ⊢
  by_cases hca : lexLt c.data a.data = true
  · by_cases hab' : lexLt a.data b.data = true
    · exact absurd (lexLt_trans _ _ _ hca hab') (by simp [hbc])
    · have : a.data = b.data :=
        lexLt_connex _ _ (by simpa using hab') hab
      rw [← this] at hbc
      exact absurd hca (by simp [hbc])
  · simpa using hca

/-- The executable comparison agrees with the lexicographic order on
character lists. -/
theorem lexLt_iff_lex (x : List Char) : ∀ y : List Char,
    lexLt x y = true ↔ List.Lex (fun a b : Char => a < b) x y := by
  induction x with
  | nil =>
    intro y
    cases y with
    | nil =>
      simp only [lexLt]
      exact ⟨fun h => (nomatch h), fun h => (nomatch h)⟩
    | cons b bs =>
      simp only [lexLt]
      exact ⟨fun _ => List.Lex.nil, fun _ => trivial⟩
  | cons a as ih =>
    intro y
    cases y with
    | nil =>
      simp only [lexLt]
      exact ⟨fun h => (nomatch h), fun h => (nomatch h)⟩
    | cons b bs =>
      constructor
      · intro h
        by_cases hab : a < b
        · exact List.Lex.rel hab
        · by_cases hba : b < a
          · simp [lexLt, hab, hba] at h
          · have h' : lexLt as bs = true := by simpa [lexLt, hab, hba] using h
            have hab' : a = b :=
              le_antisymm (le_of_not_lt hba) (le_of_not_lt hab)
            subst hab'
            exact List.Lex.cons ((ih bs).mp h')
      · intro h
        cases h with
        | rel hab => simp [lexLt, hab]
        | cons htl => simp [lexLt, lt_irrefl, (ih bs).mpr htl]

/-- The executable comparison agrees with the order on `String` used by
`sort.Strings`. -/
theorem strLe_iff_le (a b : String) : strLe a b = true ↔ a ≤ b := by
  have hlt : strLt b a = true ↔ b < a := by
    rw [String.lt_iff_toList_lt]
    exact lexLt_iff_lex b.data a.data
  constructor
  · intro h hba
    have : strLt b a = true := hlt.mpr hba
    simp [strLe, this] at h
  · intro h
    have : strLt b a = false := by
      rcases Bool.eq_false_or_eq_true (strLt b a) with h' | h'
      · exact absurd (hlt.mp h') h
      · exact h'
    simp [strLe, this]

/-- Every move of the deterministic scheduler is a step of the system. -/
theorem schedStep_sound (cfg : Cfg) (s t : St)
    (h : schedStep cfg s = some t) : Step cfg s t := by
  unfold schedStep at h
  split at h
  case _ d k rb hr =>
    cases h
    exact Step.resolveCommit s d k [] rb hr
  case _ hr0 =>
    split at h
    case _ w cb hc =>
      cases h
      exact Step.release s w [] cb hc
    case _ hc0 =>
      split at h
      case _ w wb a hw ha =>
        cases h
        have hstep := @Step.acquire cfg s w [] wb a hw ha
        rw [hr0] at hstep
        exact hstep
      case _ =>
        split at h
        case _ d k rest hp =>
          by_cases hd : cfg.maxD < (k : Int)
          · rw [if_pos hd] at h
            cases h
            exact Step.skipDepth s d k rest hp hd
          · rw [if_neg hd] at h
            by_cases hv : directDomain d ∈ s.visited
            · rw [if_pos hv] at h
              cases h
              exact Step.skipVisited s d k rest hp hd hv
            · rw [if_neg hv] at h
              cases h
              exact Step.dispatch s d k rest hp hd hv
        case _ => exact absurd h (by simp)

/-- States produced by the deterministic scheduler are reachable. -/
theorem reaches_runBFS (cfg : Cfg) (fuel : Nat) (s : St) :
    Reaches cfg s (runBFS cfg fuel s) := by
  induction fuel generalizing s with
  | zero => exact Relation.ReflTransGen.refl
  | succ n ih =>
    unfold runBFS
    split
    case _ t ht =>
      exact Relation.ReflTransGen.head (schedStep_sound cfg s t ht) (ih t)
    case _ => exact Relation.ReflTransGen.refl

/-! Invariants of the transition system. -/

/-- Moving an element out of the middle of a catenated list is a
permutation. -/
theorem perm_move_mid {α : Type} [DecidableEq α] (la lb X : List α) (w : α) :
    ((la ++ lb) ++ (w :: X)).Perm ((la ++ w :: lb) ++ X) := by
  rw [List.perm_iff_count]
  intro a
  by_cases h : a = w
  · simp only [List.count_append, List.count_cons, h]
    omega
  · simp only [List.count_append, List.count_cons, h]
    omega

/-- Permit conservation: tokens in `threadPass` plus workers holding a
permit always total `parallel`. -/
theorem permits_inv (cfg : Cfg) (root : String) (s : St)
    (h : Reaches cfg (initSt cfg root) s) :
    s.avail + s.resolving.length + s.committing.length = cfg.P := by
  induction h with
  | refl => simp [initSt]
  | tail _ hstep ih =>
    cases hstep with
    | skipDepth d k rest hp hd => simpa using ih
    | skipVisited d k rest hp hd hv => simpa using ih
    | dispatch d k rest hp hd hv => simpa using ih
    | acquire w la lb a hw ha =>
      simp only [List.length_cons] at ih ⊢
      omega
    | resolveCommit d k la lb hr =>
      rw [hr] at ih
      simp only [List.length_append, List.length_cons] at ih ⊢
      omega
    | release w la lb hc =>
      rw [hc] at ih
      simp only [List.length_append, List.length_cons] at ih ⊢
      omega

/-- WaitGroup accounting: the counter always equals the number of pending
frontier items plus the number of workers that have not yet run their
deferred `wg.Done()`. -/
theorem wg_inv (cfg : Cfg) (root : String) (s : St)
    (h : Reaches cfg (initSt cfg root) s) :
    s.wg = s.pending.length + s.waiting.length + s.resolving.length +
      s.committing.length := by
  induction h with
  | refl => simp [initSt]
  | tail _ hstep ih =>
    cases hstep with
    | skipDepth d k rest hp hd =>
      rw [hp] at ih
      simp only [List.length_cons] at ih ⊢
      omega
    | skipVisited d k rest hp hd hv =>
      rw [hp] at ih
      simp only [List.length_cons] at ih ⊢
      omega
    | dispatch d k rest hp hd hv =>
      rw [hp] at ih
      simp only [List.length_cons] at ih ⊢
      omega
    | acquire w la lb a hw ha =>
      rw [hw] at ih
      simp only [List.length_append, List.length_cons] at ih ⊢
      omega
    | resolveCommit d k la lb hr =>
      rw [hr] at ih
      simp only [List.length_append, List.length_cons, List.length_map] at ih ⊢
      omega
    | release w la lb hc =>
      rw [hc] at ih
      simp only [List.length_append, List.length_cons] at ih ⊢
      omega

/-- Membership after a map store: either an old binding or the new one. -/
theorem insertNode_mem (g : List (String × DomainNode)) (key : String)
    (n : DomainNode) (p : String × DomainNode)
    (hp : p ∈ insertNode g key n) : p ∈ g ∨ p = (key, n) := by
  induction g with
  | nil =>
    simp only [insertNode, List.mem_singleton] at hp
    right
    exact hp
  | cons q rest ih =>
    obtain ⟨k, m⟩ := q
    simp only [insertNode] at hp
    by_cases hk : k = key
    · rw [if_pos hk] at hp
      rcases List.mem_cons.mp hp with h | h
      · right; exact h
      · left; exact List.mem_cons_of_mem _ h
    · rw [if_neg hk] at hp
      rcases List.mem_cons.mp hp with h | h
      · left
        rw [h]
        exact List.mem_cons_self _ _
      · rcases ih h with h' | h'
        · left; exact List.mem_cons_of_mem _ h'
        · right; exact h'

/-- Keys after a map store: unchanged when the key was bound, extended by
the key otherwise. -/
theorem insertNode_keys (g : List (String × DomainNode)) (key : String)
    (n : DomainNode) :
    (insertNode g key n).map Prod.fst =
      if key ∈ g.map Prod.fst then g.map Prod.fst
      else g.map Prod.fst ++ [key] := by
  induction g with
  | nil => simp [insertNode]
  | cons q rest ih =>
    obtain ⟨k, m⟩ := q
    by_cases hk : k = key
    · subst hk
      simp [insertNode]
    · simp only [insertNode, if_neg hk, List.map_cons]
      rw [ih]
      by_cases hmem : key ∈ rest.map Prod.fst
      · simp [hmem, Ne.symm hk]
      · simp [hmem, Ne.symm hk]

/-- A map store preserves distinctness of the keys. -/
theorem insertNode_keys_nodup (g : List (String × DomainNode)) (key : String)
    (n : DomainNode) (h : (g.map Prod.fst).Nodup) :
    ((insertNode g key n).map Prod.fst).Nodup := by
  rw [insertNode_keys]
  split
  · exact h
  case _ hmem =>
    rw [List.nodup_append]
    exact ⟨h, List.nodup_singleton key,
      fun a ha hmem1 => hmem (by rwa [List.mem_singleton.mp hmem1] at ha)⟩

/-- The visited set never records a canonical domain twice. -/
theorem visited_nodup (cfg : Cfg) (root : String) (s : St)
    (h : Reaches cfg (initSt cfg root) s) : s.visited.Nodup := by
  induction h with
  | refl => simp [initSt]
  | tail _ hstep ih =>
    cases hstep with
    | skipDepth d k rest hp hd => simpa using ih
    | skipVisited d k rest hp hd hv => simpa using ih
    | dispatch d k rest hp hd hv => exact List.Nodup.cons hv ih
    | acquire w la lb a hw ha => simpa using ih
    | resolveCommit d k la lb hr => simpa using ih
    | release w la lb hc => simpa using ih

/-- One step preserves the deduplication discipline. -/
theorem dedupInv_step (cfg : Cfg) (u v : St) (hstep : Step cfg u v)
    (ih : DedupInv u) : DedupInv v := by
  obtain ⟨ihW, ihV, ihG, ihK⟩ := ih
  cases hstep with
  | skipDepth d k rest hp hd => exact ⟨ihW, ihV, ihG, ihK⟩
  | skipVisited d k rest hp hd hv => exact ⟨ihW, ihV, ihG, ihK⟩
  | dispatch d k rest hp hd hv =>
    refine ⟨?_, ?_, ihG, ?_⟩
    · refine List.Nodup.cons ?_ ihW
      intro hmem
      rcases List.mem_map.mp hmem with ⟨w, hw, heq⟩
      have : directDomain w.dom ∈ u.visited := ihV w hw
      rw [heq] at this
      exact hv this
    · intro w hw
      rcases List.mem_cons.mp hw with h' | h'
      · rw [h']
        exact List.mem_cons_self _ _
      · exact List.mem_cons_of_mem _ (ihV w h')
    · intro p hp
      exact ihK p hp
  | acquire w la lb a hw ha =>
    unfold St.workers at ihW ihV
    rw [hw] at ihW ihV
    have hperm :
        ((((la ++ lb) ++ (w :: u.resolving)) ++ u.committing) ++
          u.finished).Perm
        ((((la ++ (w :: lb)) ++ u.resolving) ++ u.committing) ++
          u.finished) := by
      rw [List.perm_iff_count]
      intro x
      by_cases hx : x = w
      · simp only [List.count_append, List.count_cons, hx]
        omega
      · simp only [List.count_append, List.count_cons, hx]
        omega
    refine ⟨?_, ?_, ihG, ihK⟩
    · exact ((hperm.map _).nodup_iff).mpr ihW
    · intro w' hw'
      have hw2 : w' ∈ (((la ++ lb) ++ (w :: u.resolving)) ++
          u.committing) ++ u.finished := hw'
      exact ihV w' (hperm.mem_iff.mp hw2)
  | resolveCommit d k la lb hr =>
    unfold St.workers at ihW ihV
    rw [hr] at ihW ihV
    have hperm :
        (((u.waiting ++ (la ++ lb)) ++ ((⟨d, k⟩ : Item) ::
          u.committing)) ++ u.finished).Perm
        (((u.waiting ++ (la ++ (⟨d, k⟩ : Item) :: lb)) ++
          u.committing) ++ u.finished) := by
      rw [List.perm_iff_count]
      intro x
      by_cases hx : x = ⟨d, k⟩
      · simp only [List.count_append, List.count_cons, hx]
        omega
      · simp only [List.count_append, List.count_cons, hx]
        omega
    refine ⟨?_, ?_, ?_, ?_⟩
    · exact ((hperm.map _).nodup_iff).mpr ihW
    · intro w' hw'
      have hw2 : w' ∈ ((u.waiting ++ (la ++ lb)) ++
          ((⟨d, k⟩ : Item) :: u.committing)) ++ u.finished := hw'
      exact ihV w' (hperm.mem_iff.mp hw2)
    · exact insertNode_keys_nodup u.graph _ _ ihG
    · intro p hp
      rcases insertNode_mem u.graph _ _ p hp with h' | h'
      · have hmem := ihK p h'
        rw [List.map_append] at hmem ⊢
        rcases List.mem_append.mp hmem with h'' | h''
        · exact List.mem_append_left _ (List.mem_cons_of_mem _ h'')
        · exact List.mem_append_right _ h''
      · rw [h']
        rw [List.map_append]
        exact List.mem_append_left _ (List.mem_cons_self _ _)
  | release w la lb hc =>
    unfold St.workers at ihW ihV
    rw [hc] at ihW ihV
    have hperm :
        (((u.waiting ++ u.resolving) ++ (la ++ lb)) ++
          (w :: u.finished)).Perm
        (((u.waiting ++ u.resolving) ++ (la ++ (w :: lb))) ++
          u.finished) := by
      rw [List.perm_iff_count]
      intro x
      by_cases hx : x = w
      · simp only [List.count_append, List.count_cons, hx]
        omega
      · simp only [List.count_append, List.count_cons, hx]
        omega
    have hperm0 :
        ((la ++ lb) ++ (w :: u.finished)).Perm
          ((la ++ (w :: lb)) ++ u.finished) :=
      perm_move_mid la lb u.finished w
    refine ⟨?_, ?_, ihG, ?_⟩
    · exact ((hperm.map _).nodup_iff).mpr ihW
    · intro w' hw'
      have hw2 : w' ∈ ((u.waiting ++ u.resolving) ++ (la ++ lb)) ++
          (w :: u.finished) := hw'
      exact ihV w' (hperm.mem_iff.mp hw2)
    · intro p hp
      have hmem := ihK p hp
      rw [hc] at hmem
      exact ((hperm0.map _).mem_iff).mpr hmem

/-- The deduplication discipline holds in every reachable state. -/
theorem dedup_inv (cfg : Cfg) (root : String) (s : St)
    (h : Reaches cfg (initSt cfg root) s) : DedupInv s := by
  induction h with
  | refl =>
    refine ⟨?_, ?_, ?_, ?_⟩ <;> simp [initSt, St.workers, DedupInv]
  | tail _ hstep ih => exact dedupInv_step cfg _ _ hstep ih

/-- Membership characterization for the worker pool. -/
theorem mem_workers (s : St) (w : Item) :
    w ∈ s.workers ↔ w ∈ s.waiting ∨ w ∈ s.resolving ∨ w ∈ s.committing ∨
      w ∈ s.finished := by
  unfold St.workers
  simp [List.mem_append, or_assoc]

/-- A worker of the successor state was a worker before, unless the step
was a dispatch, in which case it may be the freshly admitted head of the
frontier. -/
theorem workers_step_mem (cfg : Cfg) (u v : St) (hstep : Step cfg u v)
    (w' : Item) (hw' : w' ∈ v.workers) :
    w' ∈ u.workers ∨
      (∃ d k rest, u.pending = ⟨d, k⟩ :: rest ∧ w' = ⟨d, k⟩ ∧
        ¬ cfg.maxD < (k : Int) ∧ directDomain d ∉ u.visited) := by
  cases hstep with
  | skipDepth d k rest hp hd => exact Or.inl hw'
  | skipVisited d k rest hp hd hv => exact Or.inl hw'
  | dispatch d k rest hp hd hv =>
    rw [mem_workers] at hw'
    rcases hw' with h | h | h | h
    · rcases List.mem_cons.mp h with h1 | h1
      · exact Or.inr ⟨d, k, rest, hp, h1, hd, hv⟩
      · exact Or.inl ((mem_workers u w').mpr (Or.inl h1))
    · exact Or.inl ((mem_workers u w').mpr (Or.inr (Or.inl h)))
    · exact Or.inl ((mem_workers u w').mpr (Or.inr (Or.inr (Or.inl h))))
    · exact Or.inl ((mem_workers u w').mpr (Or.inr (Or.inr (Or.inr h))))
  | acquire w la lb a hw ha =>
    rw [mem_workers] at hw'
    refine Or.inl ((mem_workers u w').mpr ?_)
    rcases hw' with h | h | h | h
    · left
      rw [hw]
      rcases List.mem_append.mp h with h1 | h1
      · exact List.mem_append_left _ h1
      · exact List.mem_append_right _ (List.mem_cons_of_mem _ h1)
    · rcases List.mem_cons.mp h with h1 | h1
      · left
        rw [hw, h1]
        exact List.mem_append_right _ (List.mem_cons_self _ _)
      · exact Or.inr (Or.inl h1)
    · exact Or.inr (Or.inr (Or.inl h))
    · exact Or.inr (Or.inr (Or.inr h))
  | resolveCommit d k la lb hr =>
    rw [mem_workers] at hw'
    refine Or.inl ((mem_workers u w').mpr ?_)
    rcases hw' with h | h | h | h
    · exact Or.inl h
    · right
      left
      rw [hr]
      rcases List.mem_append.mp h with h1 | h1
      · exact List.mem_append_left _ h1
      · exact List.mem_append_right _ (List.mem_cons_of_mem _ h1)
    · rcases List.mem_cons.mp h with h1 | h1
      · right
        left
        rw [hr, h1]
        exact List.mem_append_right _ (List.mem_cons_self _ _)
      · exact Or.inr (Or.inr (Or.inl h1))
    · exact Or.inr (Or.inr (Or.inr h))
  | release w la lb hc =>
    rw [mem_workers] at hw'
    refine Or.inl ((mem_workers u w').mpr ?_)
    rcases hw' with h | h | h | h
    · exact Or.inl h
    · exact Or.inr (Or.inl h)
    · right
      right
      left
      rw [hc]
      rcases List.mem_append.mp h with h1 | h1
      · exact List.mem_append_left _ h1
      · exact List.mem_append_right _ (List.mem_cons_of_mem _ h1)
    · rcases List.mem_cons.mp h with h1 | h1
      · right
        right
        left
        rw [hc, h1]
        exact List.mem_append_right _ (List.mem_cons_self _ _)
      · exact Or.inr (Or.inr (Or.inr h1))

/-- Every spawned worker respects the depth bound, in every reachable
state. -/
theorem workerDepth_inv (cfg : Cfg) (root : String) (s : St)
    (h : Reaches cfg (initSt cfg root) s) : WorkerDepthInv cfg s := by
  induction h with
  | refl =>
    intro w hw
    simp [initSt, St.workers] at hw
  | tail _ hstep ih =>
    intro w hw
    rcases workers_step_mem cfg _ _ hstep w hw with h' | ⟨d, k, rest, hp, hwn, hd, hv⟩
    · exact ih w h'
    · rw [hwn]
      exact not_lt.mp hd

/-- Every committed graph binding is shaped correctly, in every reachable
state. -/
theorem graph_inv (cfg : Cfg) (root : String) (s : St)
    (h : Reaches cfg (initSt cfg root) s) : GraphInv cfg s := by
  induction h with
  | refl =>
    intro p hp
    simp [initSt] at hp
  | tail hreach hstep ih =>
    have hdepth := workerDepth_inv cfg root _ hreach
    cases hstep with
    | skipDepth d k rest hp hd => exact ih
    | skipVisited d k rest hp hd hv => exact ih
    | dispatch d k rest hp hd hv => exact ih
    | acquire w la lb a hw ha => exact ih
    | resolveCommit d k la lb hr =>
      intro p hp
      rcases insertNode_mem _ _ _ p hp with h' | h'
      · exact ih p h'
      · rw [h']
        refine ⟨rfl, rfl, ?_⟩
        refine hdepth ⟨d, k⟩ ?_
        rw [mem_workers]
        right
        left
        rw [hr]
        exact List.mem_append_right _ (List.mem_cons_self _ _)
    | release w la lb hc => exact ih

/-- One step preserves confinement to a neighbor-closed universe `U`. -/
theorem domInv_step (cfg : Cfg) (U : List String) (u v : St)
    (hstep : Step cfg u v)
    (hclosed : ∀ x ∈ U, ∀ n ∈ BFSPeers cfg.oracle x, directDomain n ∈ U)
    (ih : DomInv U u) : DomInv U v := by
  obtain ⟨ihP, ihW, ihV⟩ := ih
  have hwork : ∀ w' ∈ v.workers, directDomain w'.dom ∈ U := by
    intro w' hw'
    rcases workers_step_mem cfg u v hstep w' hw' with h' |
        ⟨d, k, rest, hp, hwn, hd, hv⟩
    · exact ihW w' h'
    · rw [hwn]
      refine ihP ⟨d, k⟩ ?_
      rw [hp]
      exact List.mem_cons_self _ _
  cases hstep with
  | skipDepth d k rest hp hd =>
    refine ⟨?_, hwork, ihV⟩
    intro it hit
    refine ihP it ?_
    rw [hp]
    exact List.mem_cons_of_mem _ hit
  | skipVisited d k rest hp hd hv =>
    refine ⟨?_, hwork, ihV⟩
    intro it hit
    refine ihP it ?_
    rw [hp]
    exact List.mem_cons_of_mem _ hit
  | dispatch d k rest hp hd hv =>
    refine ⟨?_, hwork, ?_⟩
    · intro it hit
      refine ihP it ?_
      rw [hp]
      exact List.mem_cons_of_mem _ hit
    · intro x hx
      rcases List.mem_cons.mp hx with h' | h'
      · rw [h']
        refine ihP ⟨d, k⟩ ?_
        rw [hp]
        exact List.mem_cons_self _ _
      · exact ihV x h'
  | acquire w la lb a hw ha => exact ⟨ihP, hwork, ihV⟩
  | resolveCommit d k la lb hr =>
    refine ⟨?_, hwork, ihV⟩
    intro it hit
    rcases List.mem_append.mp hit with h' | h'
    · exact ihP it h'
    · rcases List.mem_map.mp h' with ⟨n, hn, heq⟩
      have hdU : directDomain d ∈ U := by
        refine ihW ⟨d, k⟩ ?_
        rw [mem_workers]
        right
        left
        rw [hr]
        exact List.mem_append_right _ (List.mem_cons_self _ _)
      have hnU := hclosed (directDomain d) hdU n hn
      rw [← heq]
      exact hnU
  | release w la lb hc => exact ⟨ihP, hwork, ihV⟩

/-- Confinement to a neighbor-closed universe holds in every reachable
state, provided the canonical root lies in the universe. -/
theorem dom_inv (cfg : Cfg) (root : String) (U : List String)
    (hroot : directDomain root ∈ U)
    (hclosed : ∀ x ∈ U, ∀ n ∈ BFSPeers cfg.oracle x, directDomain n ∈ U)
    (s : St) (h : Reaches cfg (initSt cfg root) s) : DomInv U s := by
  induction h with
  | refl =>
    refine ⟨?_, ?_, ?_⟩
    · intro it hit
      simp only [initSt, List.mem_singleton] at hit
      rw [hit]
      exact hroot
    · intro w hw
      simp [initSt, St.workers] at hw
    · intro x hx
      simp [initSt] at hx
  | tail _ hstep ih => exact domInv_step cfg U _ _ hstep hclosed ih

/-- Every step strictly decreases the termination measure, given a
neighbor-closed finite universe `U` with fan-out bound `F`. -/
theorem measure_decreases (cfg : Cfg) (U : List String) (F : Nat)
    (u v : St) (hstep : Step cfg u v)
    (hF : ∀ x ∈ U, (BFSPeers cfg.oracle x).length ≤ F)
    (hdom : DomInv U u) (hvnd : u.visited.Nodup) :
    bfsMeasure U F v < bfsMeasure U F u := by
  obtain ⟨ihP, ihW, ihV⟩ := hdom
  cases hstep with
  | skipDepth d k rest hp hd =>
    unfold bfsMeasure
    dsimp only
    rw [hp]
    simp only [List.length_cons]
    generalize (F + 3) * u.waiting.length = A
    generalize (F + 2) * u.resolving.length = B
    generalize (F + 3) * (U.length - u.visited.length) = C
    omega
  | skipVisited d k rest hp hd hv =>
    unfold bfsMeasure
    dsimp only
    rw [hp]
    simp only [List.length_cons]
    generalize (F + 3) * u.waiting.length = A
    generalize (F + 2) * u.resolving.length = B
    generalize (F + 3) * (U.length - u.visited.length) = C
    omega
  | dispatch d k rest hp hd hv =>
    have hdU : directDomain d ∈ U := by
      refine ihP ⟨d, k⟩ ?_
      rw [hp]
      exact List.mem_cons_self _ _
    have hlt : u.visited.length + 1 ≤ U.length := by
      have hnd : (directDomain d :: u.visited).Nodup :=
        List.Nodup.cons hv hvnd
      have hsub : (directDomain d :: u.visited) ⊆ U := by
        intro x hx
        rcases List.mem_cons.mp hx with h' | h'
        · rw [h']
          exact hdU
        · exact ihV x h'
      have hsp := List.Subperm.length_le (hnd.subperm hsub)
      simpa using hsp
    have hU : U.length - u.visited.length =
        (U.length - (u.visited.length + 1)) + 1 := by omega
    unfold bfsMeasure
    dsimp only
    rw [hp, hU]
    simp only [List.length_cons, Nat.mul_add, Nat.mul_one]
    generalize (F + 3) * u.waiting.length = A
    generalize (F + 2) * u.resolving.length = B
    generalize (F + 3) * (U.length - (u.visited.length + 1)) = C
    omega
  | acquire w la lb a hw ha =>
    unfold bfsMeasure
    dsimp only
    rw [hw]
    simp only [List.length_append, List.length_cons, Nat.mul_add,
      Nat.mul_one]
    generalize (F + 3) * la.length = A1
    generalize (F + 3) * lb.length = A2
    generalize (F + 2) * u.resolving.length = B
    generalize (F + 3) * (U.length - u.visited.length) = C
    omega
  | resolveCommit d k la lb hr =>
    have hdU : directDomain d ∈ U := by
      refine ihW ⟨d, k⟩ ?_
      rw [mem_workers]
      right
      left
      rw [hr]
      exact List.mem_append_right _ (List.mem_cons_self _ _)
    have hlen : (BFSPeers cfg.oracle (directDomain d)).length ≤ F :=
      hF (directDomain d) hdU
    unfold bfsMeasure
    dsimp only
    rw [hr]
    simp only [List.length_append, List.length_cons, List.length_map,
      Nat.mul_add, Nat.mul_one]
    generalize (F + 3) * u.waiting.length = A
    generalize (F + 2) * la.length = B1
    generalize (F + 2) * lb.length = B2
    generalize (F + 3) * (U.length - u.visited.length) = C
    omega
  | release w la lb hc =>
    unfold bfsMeasure
    dsimp only
    rw [hc]
    simp only [List.length_append, List.length_cons]
    generalize (F + 3) * u.waiting.length = A
    generalize (F + 2) * u.resolving.length = B
    generalize (F + 3) * (U.length - u.visited.length) = C
    omega

/-- A state in which no step is possible has drained completely: no
pending frontier item and no live worker (given at least one permit). -/
theorem stuck_drained (cfg : Cfg) (root : String) (s : St)
    (hreach : Reaches cfg (initSt cfg root) s) (hP : 1 ≤ cfg.P)
    (hstuck : ∀ t, ¬ Step cfg s t) :
    s.pending = [] ∧ s.waiting = [] ∧ s.resolving = [] ∧
      s.committing = [] := by
  have hres : s.resolving = [] := by
    cases hr : s.resolving with
    | nil => rfl
    | cons w rb =>
      obtain ⟨d, k⟩ := w
      exact absurd (Step.resolveCommit s d k [] rb hr) (hstuck _)
  have hcom : s.committing = [] := by
    cases hc : s.committing with
    | nil => rfl
    | cons w cb =>
      exact absurd (Step.release s w [] cb hc) (hstuck _)
  have hwait : s.waiting = [] := by
    cases hw : s.waiting with
    | nil => rfl
    | cons w wb =>
      have hperm := permits_inv cfg root s hreach
      rw [hres, hcom] at hperm
      simp only [List.length_nil] at hperm
      have havail : s.avail = cfg.P := by omega
      cases hq : cfg.P with
      | zero => omega
      | succ a =>
        have ha : s.avail = a + 1 := by omega
        exact absurd (Step.acquire s w [] wb a hw ha) (hstuck _)
  have hpend : s.pending = [] := by
    cases hpd : s.pending with
    | nil => rfl
    | cons it rest =>
      obtain ⟨d, k⟩ := it
      by_cases hd : cfg.maxD < (k : Int)
      · exact absurd (Step.skipDepth s d k rest hpd hd) (hstuck _)
      · by_cases hv : directDomain d ∈ s.visited
        · exact absurd (Step.skipVisited s d k rest hpd hd hv) (hstuck _)
        · exact absurd (Step.dispatch s d k rest hpd hd hv) (hstuck _)
  exact ⟨hpend, hwait, hres, hcom⟩

/-! Helper lemmas about lowercasing and the neighbor derivation. -/

/-- Packing a valid code point and reading it back is the identity. -/
theorem toNat_ofNat_valid (n : Nat) (h : n.isValidChar) :
    (Char.ofNat n).toNat = n := by
  rw [Char.ofNat, dif_pos h]
  rfl

/-- ASCII lowering is idempotent. -/
theorem toLower_idem (c : Char) :
    c.toLower.toLower = c.toLower := by
  unfold Char.toLower
  by_cases h : 65 ≤ c.toNat ∧ c.toNat ≤ 90
  · rw [if_pos h]
    have hv : (c.toNat + 32).isValidChar := by
      left
      omega
    have ht : (Char.ofNat (c.toNat + 32)).toNat = c.toNat + 32 :=
      toNat_ofNat_valid _ hv
    rw [if_neg]
    rw [ht]
    omega
  · rw [if_neg h, if_neg h]

/-- String lowering is idempotent. -/
theorem strToLower_idem (s : String) :
    strToLower (strToLower s) = strToLower s := by
  unfold strToLower
  apply congrArg String.mk
  show (s.data.map Char.toLower).map Char.toLower = s.data.map Char.toLower
  rw [List.map_map]
  exact List.map_congr_left fun a _ => toLower_idem a

/-- Membership characterization of the derived neighbor list: exactly the
lowercased non-empty leaf CommonName and the lowercased non-empty SAN DNS
names of the chain. -/
theorem peers_mem (certs : List Certificate) (x : String) :
    x ∈ peersOfCerts certs ↔
      (∃ c, certs.head? = some c ∧ 0 < (strToLower c.commonName).length ∧
        x = strToLower c.commonName) ∨
      (∃ c ∈ certs, ∃ d ∈ c.dnsNames, 0 < d.length ∧
        x = strToLower d) := by
  unfold peersOfCerts
  by_cases hcerts : certs.length = 0
  · rw [if_pos hcerts]
    have hnil : certs = [] := List.length_eq_zero.mp hcerts
    subst hnil
    simp
  · rw [if_neg hcerts]
    have h1 : x ∈ sortStrings (certCandidates certs).dedup ↔
        x ∈ (certCandidates certs).dedup :=
      (List.perm_insertionSort _ _).mem_iff
    rw [h1, List.mem_dedup]
    unfold certCandidates cnCandidate sanCandidates
    cases certs with
    | nil => simp at hcerts
    | cons c rest =>
      simp only [List.mem_append, List.mem_flatten, List.mem_map,
        List.mem_filter, List.head?_cons, Option.some_inj]
      constructor
      · intro h
        rcases h with h | h
        · left
          refine ⟨c, rfl, ?_⟩
          by_cases hcn : 0 < (strToLower c.commonName).length
          · rw [if_pos hcn] at h
            rcases List.mem_singleton.mp h with h'
            exact ⟨hcn, h'⟩
          · rw [if_neg hcn] at h
            simp at h
        · rcases h with ⟨l, ⟨c', hc', hl⟩, hx⟩
          rw [← hl] at hx
          rcases List.mem_map.mp hx with ⟨d, hd, hxd⟩
          rcases List.mem_filter.mp hd with ⟨hdmem, hdlen⟩
          right
          refine ⟨c', hc', d, hdmem, ?_, hxd.symm⟩
          exact of_decide_eq_true hdlen
      · intro h
        rcases h with ⟨c', hc', hcn, hx⟩ | ⟨c', hc', d, hd, hdlen, hx⟩
        · left
          rw [← hc'] at hcn hx
          rw [if_pos hcn]
          exact List.mem_singleton.mpr hx
        · right
          refine ⟨(c'.dnsNames.filter (fun d => 0 < d.length)).map
            strToLower, ⟨c', hc', rfl⟩, ?_⟩
          rw [hx]
          refine List.mem_map_of_mem _ ?_
          exact List.mem_filter.mpr ⟨hd, decide_eq_true hdlen⟩

/-- The derived neighbor list is sorted ascending. -/
theorem peers_sorted (certs : List Certificate) :
    (peersOfCerts certs).Sorted (fun a b : String => a ≤ b) := by
  unfold peersOfCerts
  split
  · exact List.sorted_nil
  · have hs : (sortStrings (certCandidates certs).dedup).Sorted
        (fun a b => strLe a b = true) :=
      List.sorted_insertionSort _ _
    exact hs.imp fun hab => (strLe_iff_le _ _).mp hab

/-- The derived neighbor list has no duplicates. -/
theorem peers_nodup (certs : List Certificate) :
    (peersOfCerts certs).Nodup := by
  unfold peersOfCerts
  split
  · exact List.nodup_nil
  · exact ((List.perm_insertionSort _ _).nodup_iff).mpr
      (List.nodup_dedup _)

/-- Every derived neighbor is already lowercase. -/
theorem peers_lowered (certs : List Certificate) (x : String)
    (hx : x ∈ peersOfCerts certs) : strToLower x = x := by
  rcases (peers_mem certs x).mp hx with ⟨c, _, _, hx'⟩ |
    ⟨c, _, d, _, _, hx'⟩
  · rw [hx']
    exact strToLower_idem _
  · rw [hx']
    exact strToLower_idem _

/-- One step preserves lowercase hostnames everywhere in flight. -/
theorem loweredInv_step (cfg : Cfg) (u v : St) (hstep : Step cfg u v)
    (ih : LoweredInv u) : LoweredInv v := by
  obtain ⟨ihP, ihW, ihG⟩ := ih
  have hwork : ∀ w' ∈ v.workers, strToLower w'.dom = w'.dom := by
    intro w' hw'
    rcases workers_step_mem cfg u v hstep w' hw' with h' |
        ⟨d, k, rest, hp, hwn, hd, hv⟩
    · exact ihW w' h'
    · rw [hwn]
      refine ihP ⟨d, k⟩ ?_
      rw [hp]
      exact List.mem_cons_self _ _
  cases hstep with
  | skipDepth d k rest hp hd =>
    refine ⟨?_, hwork, ihG⟩
    intro it hit
    refine ihP it ?_
    rw [hp]
    exact List.mem_cons_of_mem _ hit
  | skipVisited d k rest hp hd hv =>
    refine ⟨?_, hwork, ihG⟩
    intro it hit
    refine ihP it ?_
    rw [hp]
    exact List.mem_cons_of_mem _ hit
  | dispatch d k rest hp hd hv =>
    refine ⟨?_, hwork, ihG⟩
    intro it hit
    refine ihP it ?_
    rw [hp]
    exact List.mem_cons_of_mem _ hit
  | acquire w la lb a hw ha => exact ⟨ihP, hwork, ihG⟩
  | resolveCommit d k la lb hr =>
    refine ⟨?_, hwork, ?_⟩
    · intro it hit
      rcases List.mem_append.mp hit with h' | h'
      · exact ihP it h'
      · rcases List.mem_map.mp h' with ⟨n, hn, heq⟩
        rw [← heq]
        exact peers_lowered _ n hn
    · intro p hp
      rcases insertNode_mem _ _ _ p hp with h' | h'
      · exact ihG p h'
      · rw [h']
        refine ihW ⟨d, k⟩ ?_
        rw [mem_workers]
        right
        left
        rw [hr]
        exact List.mem_append_right _ (List.mem_cons_self _ _)
  | release w la lb hc => exact ⟨ihP, hwork, ihG⟩

/-- Lowercase hostnames everywhere in flight, in every reachable state of a
run whose seed is already lowercase (as `main` guarantees). -/
theorem lowered_inv (cfg : Cfg) (root : String)
    (hroot : strToLower root = root) (s : St)
    (h : Reaches cfg (initSt cfg root) s) : LoweredInv s := by
  induction h with
  | refl =>
    refine ⟨?_, ?_, ?_⟩
    · intro it hit
      simp only [initSt, List.mem_singleton] at hit
      rw [hit]
      exact hroot
    · intro w hw
      simp [initSt, St.workers] at hw
    · intro p hp
      simp [initSt] at hp
  | tail _ hstep ih => exact loweredInv_step cfg _ _ hstep ih

/-! Helper lemmas for `printGraph`. -/

/-- A bound key can be looked up. -/
theorem lookupNode_isSome (g : List (String × DomainNode)) (d : String)
    (h : d ∈ g.map Prod.fst) : (lookupNode g d).isSome := by
  induction g with
  | nil => simp at h
  | cons q rest ih =>
    obtain ⟨k, n⟩ := q
    simp only [lookupNode]
    by_cases hk : k = d
    · rw [if_pos hk]
      rfl
    · rw [if_neg hk]
      apply ih
      simp only [List.map_cons, List.mem_cons] at h
      rcases h with h' | h'
      · exact absurd h'.symm hk
      · exact h'

/-- A successful lookup returns a binding of the map. -/
theorem lookupNode_mem (g : List (String × DomainNode)) (d : String)
    (n : DomainNode) (h : lookupNode g d = some n) : (d, n) ∈ g := by
  induction g with
  | nil => simp [lookupNode] at h
  | cons q rest ih =>
    obtain ⟨k, m⟩ := q
    simp only [lookupNode] at h
    by_cases hk : k = d
    · rw [if_pos hk] at h
      cases h
      rw [← hk]
      exact List.mem_cons_self _ _
    · rw [if_neg hk] at h
      exact List.mem_cons_of_mem _ (ih h)

/-- Rendering succeeds when every requested key is bound to a node whose
`Neighbors` pointer is assigned. -/
theorem renderLines_isSome (g : List (String × DomainNode))
    (ds : List String)
    (h : ∀ d ∈ ds, ∃ n, lookupNode g d = some n ∧ n.neighbors.isSome) :
    (renderLines g ds).isSome := by
  induction ds with
  | nil => rfl
  | cons d rest ih =>
    obtain ⟨n, hn, hns⟩ := h d (List.mem_cons_self _ _)
    have hrest := ih fun d' hd' => h d' (List.mem_cons_of_mem _ hd')
    cases hnb : n.neighbors with
    | none =>
      rw [hnb] at hns
      simp at hns
    | some ns =>
      cases hrl : renderLines g rest with
      | none =>
        rw [hrl] at hrest
        simp at hrest
      | some lines => simp [renderLines, hn, hnb, hrl]

/-- `printGraph` never dereferences a nil pointer when every committed node
has its `Neighbors` assigned. -/
theorem printGraph_isSome (g : List (String × DomainNode))
    (hG : ∀ p ∈ g, p.2.neighbors.isSome) : (printGraph g).isSome := by
  unfold printGraph
  apply renderLines_isSome
  intro d hd
  have hd' : d ∈ g.map Prod.fst :=
    (List.perm_insertionSort _ _).mem_iff.mp hd
  obtain ⟨n, hn⟩ := Option.isSome_iff_exists.mp (lookupNode_isSome g d hd')
  exact ⟨n, hn, hG (d, n) (lookupNode_mem g d n hn)⟩

/-! The claims. -/

/-- C1: with parallelism configuration `P`, at no point of any execution
are more than `P` resolution tasks in flight: the tokens left in
`threadPass` plus the workers between their permit receive and their
deferred release always total exactly `P`, so the workers holding a permit
(in particular those inside the `BFSPeers` resolution call) never exceed
`P`, no matter how full the frontier is.  Acquisition before network I/O
and release on every exit path are structural in the `Step` relation: only
`acquire` moves a worker into the resolving phase (consuming a token) and
only `release` returns a token. -/
theorem C1_bounded_parallelism (cfg : Cfg) (root : String) (s : St)
    (h : Reaches cfg (initSt cfg root) s) :
    s.avail + s.resolving.length + s.committing.length = cfg.P ∧
    s.resolving.length + s.committing.length ≤ cfg.P := by
  have hinv := permits_inv cfg root s h
  exact ⟨hinv, by omega⟩

/-- C1 witness: the permit invariant evaluated at the start state of a
concrete run with `P = 1`. -/
theorem C1_witness :
    (initSt fanCfg "a.test").avail +
      (initSt fanCfg "a.test").resolving.length +
      (initSt fanCfg "a.test").committing.length = fanCfg.P ∧
    (initSt fanCfg "a.test").resolving.length +
      (initSt fanCfg "a.test").committing.length ≤ fanCfg.P :=
  C1_bounded_parallelism fanCfg "a.test" (initSt fanCfg "a.test")
    Relation.ReflTransGen.refl

/-- C2: for a finite reachable certificate graph — a universe `U` of
canonical domains containing the root and closed under derived neighbors,
with fan-out at most `F` (self references and mutual references included) —
the WaitGroup counter always equals pending items plus live workers
(incremented before every enqueue, decremented exactly once per item on
skip or post-expand completion), every step strictly decreases the
`bfsMeasure`, so no execution runs forever, and any state that admits no
further step has counter zero, which is exactly the condition on which
`wg.Wait()` returns and `BFS` ends. -/
theorem C2_termination (cfg : Cfg) (root : String) (U : List String)
    (F : Nat) (hroot : directDomain root ∈ U)
    (hclosed : ∀ x ∈ U, ∀ n ∈ BFSPeers cfg.oracle x, directDomain n ∈ U)
    (hF : ∀ x ∈ U, (BFSPeers cfg.oracle x).length ≤ F)
    (hP : 1 ≤ cfg.P) :
    (∀ s, Reaches cfg (initSt cfg root) s →
      s.wg = s.pending.length + s.waiting.length + s.resolving.length +
        s.committing.length) ∧
    (∀ s t, Reaches cfg (initSt cfg root) s → Step cfg s t →
      bfsMeasure U F t < bfsMeasure U F s) ∧
    (∀ s, Reaches cfg (initSt cfg root) s → (∀ t, ¬ Step cfg s t) →
      s.wg = 0) := by
  refine ⟨?_, ?_, ?_⟩
  · intro s hs
    exact wg_inv cfg root s hs
  · intro s t hs hstep
    exact measure_decreases cfg U F s t hstep hF
      (dom_inv cfg root U hroot hclosed s hs) (visited_nodup cfg root s hs)
  · intro s hs hstuck
    obtain ⟨hp, hw, hr, hc⟩ := stuck_drained cfg root s hs hP hstuck
    have hwg := wg_inv cfg root s hs
    rw [hp, hw, hr, hc] at hwg
    simpa using hwg

/-- C2 witness: the self-referential network (`a.test` names only itself)
with universe `["a.test"]` and fan-out bound 1; the WaitGroup equation
evaluated at the start state. -/
theorem C2_witness :
    (initSt selfCfg "a.test").wg =
      (initSt selfCfg "a.test").pending.length +
      (initSt selfCfg "a.test").waiting.length +
      (initSt selfCfg "a.test").resolving.length +
      (initSt selfCfg "a.test").committing.length :=
  (C2_termination selfCfg "a.test" ["a.test"] 1 (by decide) (by decide)
    (by decide) (by decide)).1 (initSt selfCfg "a.test")
    Relation.ReflTransGen.refl

/-- C3 counterexample: with max depth `D = 0`, the seed `a.test` sits at
depth exactly `D`; the claim says such a node is recorded but not expanded
(certificate not resolved, no neighbors), yet the run resolves it and
commits it with the non-empty neighbor list `["a.test", "b.test"]` (and
enqueues its children).  The dispatcher only skips items with depth
strictly greater than the bound. -/
theorem C3_counterexample :
    Reaches fanCfg (initSt fanCfg "a.test")
      (runBFS fanCfg 10 (initSt fanCfg "a.test")) ∧
    fanCfg.maxD = 0 ∧
    (runBFS fanCfg 10 (initSt fanCfg "a.test")).graph =
      [("a.test", ⟨"a.test", 0, some ["a.test", "b.test"]⟩)] ∧
    (∃ p ∈ (runBFS fanCfg 10 (initSt fanCfg "a.test")).graph,
      p.2.depth = 0 ∧ p.2.neighbors ≠ some [] ∧ p.2.neighbors ≠ none) :=
  ⟨reaches_runBFS fanCfg 10 (initSt fanCfg "a.test"), by decide, by decide,
    by decide⟩

/-- C3 (amended): with configured max depth `D`, no item with depth
greater than `D` is ever expanded or recorded — every spawned worker and
every committed `DomainNode` has depth at most `D` — while every recorded
node, including those at depth exactly `D`, is fully expanded: its
certificate is resolved and its `Neighbors` list is exactly the derived
peer list (children at depth `D + 1` are enqueued but discarded by the
dispatcher's depth check). -/
theorem C3_depth_bound (cfg : Cfg) (root : String) (s : St)
    (h : Reaches cfg (initSt cfg root) s) :
    (∀ w ∈ s.workers, (w.depth : Int) ≤ cfg.maxD) ∧
    (∀ p ∈ s.graph, (p.2.depth : Int) ≤ cfg.maxD ∧
      p.2.neighbors = some (BFSPeers cfg.oracle (directDomain p.2.dom))) := by
  have hW := workerDepth_inv cfg root s h
  have hG := graph_inv cfg root s h
  exact ⟨hW, fun p hp => ⟨(hG p hp).2.2, (hG p hp).2.1⟩⟩

/-- C3 witness: the depth bound evaluated on the final state of the
max-depth-0 run. -/
theorem C3_witness :
    (∀ w ∈ (runBFS fanCfg 10 (initSt fanCfg "a.test")).workers,
      (w.depth : Int) ≤ fanCfg.maxD) ∧
    (∀ p ∈ (runBFS fanCfg 10 (initSt fanCfg "a.test")).graph,
      (p.2.depth : Int) ≤ fanCfg.maxD ∧
      p.2.neighbors = some (BFSPeers fanCfg.oracle
        (directDomain p.2.dom))) :=
  C3_depth_bound fanCfg "a.test" (runBFS fanCfg 10 (initSt fanCfg "a.test"))
    (reaches_runBFS fanCfg 10 (initSt fanCfg "a.test"))

/-- C4: the final graph holds at most one `DomainNode` per canonical
domain: in every reachable state the graph keys are distinct, the visited
set is duplicate-free, distinct workers always process distinct canonical
domains (the check-and-insert happens in the single dispatcher before the
worker goroutine is spawned), and every binding is keyed by the canonical
domain of its node.  Concretely, `"*.example.com"` and `"example.com"`
canonicalize identically, and a run discovering both collapses them into a
single visited entry and a single `DomainNode`. -/
theorem C4_canonical_dedup :
    (∀ cfg root s, Reaches cfg (initSt cfg root) s →
      (s.graph.map Prod.fst).Nodup ∧ s.visited.Nodup ∧
      ((s.workers).map (fun w => directDomain w.dom)).Nodup ∧
      ∀ p ∈ s.graph, p.1 = directDomain p.2.dom) ∧
    directDomain "*.example.com" = directDomain "example.com" ∧
    (runBFS wildCfg 40 (initSt wildCfg "example.com")).graph =
      [("example.com",
        ⟨"example.com", 0, some ["*.example.com", "example.com"]⟩)] ∧
    (runBFS wildCfg 40 (initSt wildCfg "example.com")).visited =
      ["example.com"] := by
  refine ⟨?_, by decide, by decide, by decide⟩
  intro cfg root s h
  obtain ⟨hW, _, hK, _⟩ := dedup_inv cfg root s h
  have hG := graph_inv cfg root s h
  exact ⟨hK, visited_nodup cfg root s h, hW, fun p hp => (hG p hp).1⟩

/-- C4 witness: the dedup invariants evaluated at the final state of the
wildcard-collapse run. -/
theorem C4_witness :
    ((runBFS wildCfg 40 (initSt wildCfg "example.com")).graph.map
      Prod.fst).Nodup ∧
    (runBFS wildCfg 40 (initSt wildCfg "example.com")).visited.Nodup ∧
    (((runBFS wildCfg 40 (initSt wildCfg "example.com")).workers).map
      (fun w => directDomain w.dom)).Nodup ∧
    ∀ p ∈ (runBFS wildCfg 40 (initSt wildCfg "example.com")).graph,
      p.1 = directDomain p.2.dom :=
  C4_canonical_dedup.1 wildCfg "example.com"
    (runBFS wildCfg 40 (initSt wildCfg "example.com"))
    (reaches_runBFS wildCfg 40 (initSt wildCfg "example.com"))

/-- C5: the derived neighbor list of a certificate observation contains
exactly the lowercased non-empty leaf CommonName and the lowercased
non-empty SAN DNS names, without duplicates, sorted lexically ascending;
in particular CN `"a.test"` with SAN `["B.Test", "a.test"]` derives exactly
`["a.test", "b.test"]`, and the derivation is a function of the
certificates alone. -/
theorem C5_neighbor_derivation :
    (∀ certs x, x ∈ peersOfCerts certs ↔
      (∃ c, certs.head? = some c ∧ 0 < (strToLower c.commonName).length ∧
        x = strToLower c.commonName) ∨
      (∃ c ∈ certs, ∃ d ∈ c.dnsNames, 0 < d.length ∧
        x = strToLower d)) ∧
    (∀ certs, (peersOfCerts certs).Sorted (fun a b : String => a ≤ b) ∧
      (peersOfCerts certs).Nodup) ∧
    peersOfCerts [⟨"a.test", ["B.Test", "a.test"]⟩] =
      ["a.test", "b.test"] :=
  ⟨peers_mem, fun certs => ⟨peers_sorted certs, peers_nodup certs⟩,
    by decide⟩

/-- C6 counterexample: the canonicalizer does not lowercase.  On
`"*.Example.COM"` the claim predicts the lowercase form
`"example.com"`, but `directDomain` returns `"Example.COM"` — the wildcard
label is stripped and the case is left untouched. -/
theorem C6_counterexample :
    directDomain "*.Example.COM" = "Example.COM" ∧
    directDomain "*.Example.COM" ≠ "example.com" ∧
    strToLower ("*.Example.COM".drop 2) = "example.com" := by
  decide

/-- C6 (amended): the canonicalizer returns its argument unchanged except
that a leading `"*."` wildcard label is removed from strings of length at
least 3; it performs no lowercasing itself.  Lowercasing happens before the
canonicalizer ever runs: in any traversal whose seed is lowercase (as
`main` guarantees via `strings.ToLower`), every frontier hostname, worker
hostname and committed node hostname is already lowercase. -/
theorem C6_canonicalizer (s : String) :
    (s.length < 3 → directDomain s = s) ∧
    (¬ s.length < 3 → s.take 2 = "*." → directDomain s = s.drop 2) ∧
    (¬ s.length < 3 → s.take 2 ≠ "*." → directDomain s = s) ∧
    (∀ cfg root st, strToLower root = root →
      Reaches cfg (initSt cfg root) st →
      (∀ it ∈ st.pending, strToLower it.dom = it.dom) ∧
      (∀ p ∈ st.graph, strToLower p.2.dom = p.2.dom)) := by
  refine ⟨?_, ?_, ?_, ?_⟩
  · intro h
    unfold directDomain
    rw [if_pos h]
  · intro h1 h2
    unfold directDomain
    rw [if_neg h1, if_pos h2]
  · intro h1 h2
    unfold directDomain
    rw [if_neg h1, if_neg h2]
  · intro cfg root st hroot hreach
    obtain ⟨hP, _, hG⟩ := lowered_inv cfg root hroot st hreach
    exact ⟨hP, hG⟩

/-- C6 witness: the amended characterization evaluated on concrete
strings and the start state of a lowercase-seeded run. -/
theorem C6_witness :
    (¬ ("*.example.com".length < 3) → "*.example.com".take 2 = "*." →
      directDomain "*.example.com" = "*.example.com".drop 2) ∧
    ("ab".length < 3 → directDomain "ab" = "ab") ∧
    (∀ it ∈ (initSt fanCfg "a.test").pending,
      strToLower it.dom = it.dom) :=
  ⟨(C6_canonicalizer "*.example.com").2.1,
   (C6_canonicalizer "ab").1,
   fun it hit =>
     ((C6_canonicalizer "x").2.2.2 fanCfg "a.test" (initSt fanCfg "a.test")
       (by decide) Relation.ReflTransGen.refl).1 it hit⟩

/-- C7: a failed resolution is non-fatal and isolated.  `checkNetErr`
reports every transport error class the same way, `getPeerCerts` then
returns the empty chain, `BFSPeers` derives the empty neighbor list, and
the worker of a failing host still completes its commit step: the node is
sent to the aggregator with an explicitly assigned empty `Neighbors` list,
no new frontier item is enqueued (no retry: `pending` is untouched) and the
WaitGroup is not increased, while every other pending item and worker is
left exactly as it was, so all other branches proceed unaffected. -/
theorem C7_failure_isolation :
    (∀ e, checkNetErr (some e) = true) ∧
    (∀ (oracle : String → NetResult) host e,
      oracle host = NetResult.err e → getPeerCerts oracle host = []) ∧
    (∀ (oracle : String → NetResult) host e,
      oracle host = NetResult.err e → BFSPeers oracle host = []) ∧
    (∀ cfg (u : St) d k la lb e,
      cfg.oracle (directDomain d) = NetResult.err e →
      u.resolving = la ++ ⟨d, k⟩ :: lb →
      Step cfg u
        { u with
            resolving := la ++ lb,
            committing := ⟨d, k⟩ :: u.committing,
            graph := insertNode u.graph (directDomain d)
              ⟨d, k, some []⟩ }) := by
  have h2 : ∀ (oracle : String → NetResult) host e,
      oracle host = NetResult.err e → getPeerCerts oracle host = [] := by
    intro oracle host e h
    unfold getPeerCerts dialResult
    rw [h]
    rfl
  have h3 : ∀ (oracle : String → NetResult) host e,
      oracle host = NetResult.err e → BFSPeers oracle host = [] := by
    intro oracle host e h
    unfold BFSPeers
    rw [h2 oracle host e h]
    rfl
  refine ⟨fun e => rfl, h2, h3, ?_⟩
  intro cfg u d k la lb e hfail hres
  have hstep := @Step.resolveCommit cfg u d k la lb hres
  rw [h3 cfg.oracle (directDomain d) e hfail] at hstep
  simpa using hstep

/-- C7 witness: the failing host `b.test` of the `oracleFan` network, in a
mid-run state where its worker holds the only permit: the commit step
produces the node with an empty neighbor list, enqueues nothing and leaves
the rest of the state untouched. -/
theorem C7_witness :
    checkNetErr (some NetErr.connRefused) = true ∧
    getPeerCerts oracleFan "b.test" = [] ∧
    BFSPeers oracleFan "b.test" = [] ∧
    Step fanCfg failSt
      { failSt with
          resolving := [] ++ [],
          committing := (⟨"b.test", 1⟩ : Item) :: failSt.committing,
          graph := insertNode failSt.graph (directDomain "b.test")
            ⟨"b.test", 1, some []⟩ } :=
  ⟨C7_failure_isolation.1 NetErr.connRefused,
   C7_failure_isolation.2.1 oracleFan "b.test" NetErr.unknownHost
     (by decide),
   C7_failure_isolation.2.2.1 oracleFan "b.test" NetErr.unknownHost
     (by decide),
   C7_failure_isolation.2.2.2 fanCfg failSt "b.test" 1 [] []
     NetErr.unknownHost (by decide) rfl⟩

/-- C8: a parallelism configuration below 1 is a startup-fatal error:
`mainRun` reports the fatal message and returns before any traversal
begins — the result does not depend on the network oracle or on how long
the scheduler could have run, so `BFS` is never invoked and no network
operation is attempted. -/
theorem C8_parallel_guard (p maxD : Int) (host : String)
    (o1 o2 : String → NetResult) (f1 f2 : Nat) (hp : p < 1) :
    mainRun p maxD host o1 f1 =
      Except.error "Must enter a positive number of parallel threads" ∧
    mainRun p maxD host o1 f1 = mainRun p maxD host o2 f2 := by
  unfold mainRun
  rw [if_pos hp]
  exact ⟨rfl, by rw [if_pos hp]⟩

/-- C8 witness: `-parallel 0` under two different networks and fuels. -/
theorem C8_witness :
    mainRun 0 20 "a.test" oracleFan 0 =
      Except.error "Must enter a positive number of parallel threads" ∧
    mainRun 0 20 "a.test" oracleFan 0 = mainRun 0 20 "a.test" oracleSelf 7 :=
  C8_parallel_guard 0 20 "a.test" oracleFan oracleSelf 0 7 (by decide)

/-- C9: every `DomainNode` committed to the graph had its `Neighbors`
pointer assigned by its worker before being sent to the aggregator, so in
every reachable state all graph entries have a non-nil `Neighbors` field
and `printGraph` dereferences no nil pointer. -/
theorem C9_neighbors_assigned (cfg : Cfg) (root : String) (s : St)
    (h : Reaches cfg (initSt cfg root) s) :
    (∀ p ∈ s.graph, (p.2.neighbors).isSome) ∧
    (printGraph s.graph).isSome := by
  have hG := graph_inv cfg root s h
  have h1 : ∀ p ∈ s.graph, (p.2.neighbors).isSome := by
    intro p hp
    rw [(hG p hp).2.1]
    rfl
  exact ⟨h1, printGraph_isSome s.graph h1⟩

/-- C9 witness: the non-nil-`Neighbors` property evaluated on the final
state of a run with a non-empty graph. -/
theorem C9_witness :
    (∀ p ∈ (runBFS fanCfg 10 (initSt fanCfg "a.test")).graph,
      (p.2.neighbors).isSome) ∧
    (printGraph (runBFS fanCfg 10 (initSt fanCfg "a.test")).graph).isSome :=
  C9_neighbors_assigned fanCfg "a.test"
    (runBFS fanCfg 10 (initSt fanCfg "a.test"))
    (reaches_runBFS fanCfg 10 (initSt fanCfg "a.test"))

/-- C10: on every input of length less than 3 the canonicalizer is the
identity; in particular the two-character string `"*."` is returned
unchanged, its wildcard label not stripped. -/
theorem C10_short_input (s : String) (h : s.length < 3) :
    directDomain s = s ∧ directDomain "*." = "*." := by
  constructor
  · unfold directDomain
    rw [if_pos h]
  · decide

/-- C10 witness: the exact string `"*."` (length 2). -/
theorem C10_witness :
    ("*." : String).length < 3 ∧ directDomain "*." = "*." :=
  ⟨by decide, (C10_short_input "*." (by decide)).2⟩

end Certgraph
